import Mathlib

/-!
Shallow embedding of the outline-generation subsystem
(`src/library/src/meta/outline.rs`): `OutlineElem::show`,
`OutlineIndent::apply`, the `Finalize` restyle and the `LocalName` table,
together with theorems settling the specification claims about them.

External collaborators (introspector query engine, counter/numbering
subsystem, caller-supplied indent functions) are modelled as oracle
functions carried by a `World` record; matched elements are records
exposing exactly the data the source reads off a match (`with::<dyn
Outlinable>`, `level()`, `outline(vt)`, `numbering()`, `counter()`,
`location()`).  Rust `.unwrap()` on a missing value is modelled by the
distinguished outcome `BuildResult.fatal`, kept separate from the
`SourceResult` error channel.
-/

/-- Numbering pattern or numbering function, as resolved on an element
(`Numbering::Pattern` / `Numbering::Func`); functions are identified by an id
since only the counter subsystem (an oracle here) interprets them. -/
inductive Numbering where
  | pattern (s : String)
  | func (id : Nat)
deriving DecidableEq

/-- Spacing argument of `HElem` (`Spacing::Rel` / `Spacing::Fr`). -/
inductive Spacing where
  | rel (amount : Int)
  | fr (amount : Int)
deriving DecidableEq

/-- Key of a counter: the page counter or an element counter
(`CounterKey::Page` and friends). -/
inductive CounterKey where
  | page
  | elem (id : Nat)
deriving DecidableEq

/-- Errors of the build (`SourceResult` diagnostics): the
`cannot outline {}` bail, the `indent function must return content` bail,
and errors propagated verbatim from external counter/numbering/function
calls. -/
inductive Err where
  | cannotOutline (kind : String)
  | indentNotContent
  | external (msg : String)
deriving DecidableEq

/-- Kind of an element, used by style properties (`HeadingElem::set_*`
target a specific element kind). -/
inductive ElemKind where
  | heading
  | figure
  | other (name : String)
deriving DecidableEq

/-- Settable style property appearing in this module: the heading-style
flags `outlined` and `numbering`. -/
inductive StyleProp where
  | outlined (v : Bool)
  | numbering (v : Option Numbering)
deriving DecidableEq

/-- Content tree, restricted to the constructors this module produces:
text, `SpaceElem`, `LinebreakElem`, `ParbreakElem`, `HElem`, `HideElem`,
`BoxElem` (body with fractional width), `Content::linked` destinations,
`Content::styled` wrappers, `HeadingElem` (with its settable fields:
`none` in a field means the field was not set on construction), and
`Content::sequence`. -/
inductive Content where
  | text (s : String)
  | space
  | linebreak
  | parbreak
  | h (amount : Spacing)
  | hide (body : Content)
  | box (body : Content)
  | linked (dest : Nat) (body : Content)
  | styled (kind : ElemKind) (prop : StyleProp) (body : Content)
  | heading (body : Content) (level : Option Nat)
      (numbering : Option (Option Numbering)) (outlined : Option Bool)
  | seq (children : List Content)

/-- Empty content (`Content::empty`): the empty sequence. -/
def Content.empty : Content := .seq []

/-- Emptiness test mirroring `Content::is_empty`. -/
def Content.isEmpty : Content → Bool
  | .seq [] => true
  | _ => false

mutual

/-- Plain text carried by a piece of content (used to state the
auto-indent alignment law about the hidden fragment). -/
def textOf : Content → String
  | .text s => s
  | .space => " "
  | .linebreak => "\n"
  | .parbreak => "\n\n"
  | .h _ => ""
  | .hide body => textOf body
  | .box body => textOf body
  | .linked _ body => textOf body
  | .styled _ _ body => textOf body
  | .heading body _ _ _ => textOf body
  | .seq children => textOfList children

/-- Concatenated text of a list of content items. -/
def textOfList : List Content → String
  | [] => ""
  | c :: cs => textOf c ++ textOfList cs

end

/-- Dynamic value returned by a caller-supplied indent function; the
source only distinguishes whether `returned.cast::<Content>()` succeeds. -/
inductive Value where
  | content (c : Content)
  | other (desc : String)

/-- Cast of a returned value to content (`Value::cast::<Content>`). -/
def Value.castContent : Value → Option Content
  | .content c => some c
  | .other _ => none

/-- A query match, exposing what the show loop reads from it: its kind
name (`elem.func().name()`), whether `elem.with::<dyn Outlinable>()`
succeeds, its nesting `level()`, the result of `outline(vt)` (which may
error or be absent), its `numbering()` and `counter()` accessors used by
the auto indent, and its resolved `location()`. -/
structure Element where
  name : String
  outlinable : Bool
  level : Nat
  outlineRes : Except Err (Option Content)
  numbering : Option Numbering
  counter : CounterKey
  location : Option Nat

/-- Oracles for the external introspector / counter subsystem:
`page_numbering(location)` (already cast to an optional numbering),
`Counter::at(location)` for an arbitrary counter key, and
`CounterState::display(numbering)`. -/
structure World where
  pageNumberingAt : Nat → Option Numbering
  counterAt : CounterKey → Nat → Except Err Nat
  display : Nat → Numbering → Except Err Content

/-- Outcome of a fallible build step: success, a `SourceResult` error,
or a Rust `panic` from `.unwrap()` on a missing value (kept distinct
from the error channel). -/
inductive BuildResult (α : Type) where
  | ok (val : α)
  | err (e : Err)
  | fatal

/-- Smart value (`Smart::Auto` / `Smart::Custom`). -/
inductive Smart (α : Type) where
  | auto
  | custom (v : α)

/-- Indentation strategy (`OutlineIndent`): legacy booleans, a fixed
length per level, or a caller-supplied function from the nesting depth
to a value (`func.call_vt(vt, [depth])`, which may itself error). -/
inductive OutlineIndent where
  | bool (v : Bool)
  | length (l : Spacing)
  | function (f : Nat → Except Err Value)

/-- Per-invocation configuration of `OutlineElem`, with the style-chain
inputs (text language and region) the title resolution reads. The
`target` selector itself stays external: `build` receives the query
result directly. -/
structure Config where
  title : Option (Smart Content)
  depth : Option Nat
  indent : Option (Smart OutlineIndent)
  fill : Option Content
  lang : String
  region : Option String

/-- Largest value of the machine word used for levels and depths
(`usize::MAX` on a 64-bit target). -/
def USIZE_MAX : Nat := 2 ^ 64 - 1

/-- Localized outline title (`LocalName for OutlineElem`), keyed by
language code and region exactly as the source match. -/
def localName (lang : String) (region : Option String) : String :=
  match lang with
  | "ar" => "المحتويات"
  | "nb" => "Innhold"
  | "zh" => if region = some "TW" then "目錄" else "目录"
  | "cs" => "Obsah"
  | "da" => "Indhold"
  | "nl" => "Inhoudsopgave"
  | "fr" => "Table des matières"
  | "de" => "Inhaltsverzeichnis"
  | "it" => "Indice"
  | "nn" => "Innhald"
  | "pl" => "Spis treści"
  | "pt" => "Sumário"
  | "ru" => "Содержание"
  | "sl" => "Kazalo"
  | "es" => "Índice"
  | "sv" => "Innehåll"
  | "uk" => "Зміст"
  | "vi" => "Mục lục"
  | _ => "Contents"

/-- Pop loop of the ancestor stack, on the reversed chain (head =
deepest): pop while the last entry exists, is outlinable, and its level
is greater than or equal to the incoming level — the exact condition
`ancestors.last().and_then(..with::<dyn Outlinable>()).map_or(false,
|last| last.level() >= outlinable.level())`. -/
def popWhileGe : List Element → Nat → List Element
  | [], _ => []
  | last :: rest, lvl =>
    if last.outlinable = true ∧ lvl ≤ last.level then popWhileGe rest lvl
    else last :: rest

/-- Ancestor-chain update before an element is appended: the source's
`while … { ancestors.pop(); }` loop, acting on a chain stored
shallow-to-deep. -/
def popAncestors (ancestors : List Element) (lvl : Nat) : List Element :=
  (popWhileGe ancestors.reverse lvl).reverse

/-- Hidden-numbering loop of the auto indent: for each ancestor
(shallow to deep), unwrap its outlinable capability, and if it has a
numbering, resolve its counter at its own location (unwrapped) and
display it, accumulating `numbers + space` pairs. -/
def hiddenLoop (w : World) : List Element → List Content → BuildResult (List Content)
  | [], hidden => .ok hidden
  | a :: rest, hidden =>
    if a.outlinable = true then
      match a.numbering with
      | none => hiddenLoop w rest hidden
      | some numbering =>
        match a.location with
        | none => .fatal
        | some loc =>
          match w.counterAt a.counter loc with
          | .error e => .err e
          | .ok v =>
            match w.display v numbering with
            | .error e => .err e
            | .ok numbers => hiddenLoop w rest (hidden ++ [numbers, .space])
    else .fatal

/-- Indentation dispatch (`OutlineIndent::apply`): appends the indent
fragment for the current ancestor chain to `seq`. -/
def OutlineIndent.apply (indent : Option (Smart OutlineIndent)) (w : World)
    (ancestors : List Element) (seq : List Content) : BuildResult (List Content) :=
  match indent with
  | none | some (.custom (.bool false)) => .ok seq
  | some .auto | some (.custom (.bool true)) =>
    match hiddenLoop w ancestors [] with
    | .err e => .err e
    | .fatal => .fatal
    | .ok hidden =>
      if ancestors.isEmpty then .ok seq
      else .ok (seq ++ [.hide (.seq hidden), .space])
  | some (.custom (.length l)) =>
    .ok (seq ++ [.seq (List.replicate ancestors.length (.h l))])
  | some (.custom (.function f)) =>
    match f ancestors.length with
    | .error e => .err e
    | .ok returned =>
      match returned.castContent with
      | none => .err .indentNotContent
      | some c => if c.isEmpty then .ok seq else .ok (seq ++ [c])

/-- Main loop of `OutlineElem::show` over the query matches, carrying
the ancestor chain and the accumulated output sequence; returns both on
completion (the source drops the chain when the loop ends). -/
def showLoop (cfg : Config) (w : World) (depth : Nat) :
    List Element → List Element → List Content → BuildResult (List Content × List Element)
  | [], ancestors, seq => .ok (seq, ancestors)
  | e :: rest, ancestors, seq =>
    if e.outlinable = true then
      if depth < e.level then showLoop cfg w depth rest ancestors seq
      else
        match e.outlineRes with
        | .error er => .err er
        | .ok none => showLoop cfg w depth rest ancestors seq
        | .ok (some outline) =>
          match e.location with
          | none => .fatal
          | some location =>
            let ancestors := popAncestors ancestors e.level
            match OutlineIndent.apply cfg.indent w ancestors seq with
            | .err er => .err er
            | .fatal => .fatal
            | .ok seq =>
              let seq := seq ++ [Content.linked location outline]
              let page_numbering :=
                (w.pageNumberingAt location).getD (Numbering.pattern "1")
              let seq :=
                match cfg.fill with
                | some filler => seq ++ [.space, .box filler, .space]
                | none => seq ++ [.h (.fr 1)]
              match w.counterAt .page location with
              | .error er => .err er
              | .ok v =>
                match w.display v page_numbering with
                | .error er => .err er
                | .ok page =>
                  showLoop cfg w depth rest (ancestors ++ [e])
                    (seq ++ [Content.linked location page, Content.linebreak])
    else .err (.cannotOutline e.name)

/-- Sequence built before the loop runs: the leading paragraph break
and, when a title is configured (auto resolving to the localized name),
a level-1 heading with only its level set. -/
def initialSeq (cfg : Config) : List Content :=
  match cfg.title with
  | none => [Content.parbreak]
  | some t =>
    let title :=
      match t with
      | .auto => Content.text (localName cfg.lang cfg.region)
      | .custom c => c
    [Content.parbreak, Content.heading title (some 1) none none]

/-- Whole `OutlineElem::show`: initial sequence, the loop over the
query matches, trailing paragraph break, wrapped as one sequence. -/
def build (cfg : Config) (w : World) (elems : List Element) : BuildResult Content :=
  match showLoop cfg w (cfg.depth.getD USIZE_MAX) elems [] (initialSeq cfg) with
  | .ok (seq, _) => .ok (.seq (seq ++ [Content.parbreak]))
  | .err e => .err e
  | .fatal => .fatal

/-- Post-build restyle (`Finalize for OutlineElem`): wraps the realized
content in `HeadingElem::set_outlined(false)` and
`HeadingElem::set_numbering(None)` style wrappers. -/
def finalize (realized : Content) : Content :=
  .styled .heading (.numbering none)
    (.styled .heading (.outlined false) realized)

/-- Style wrappers enclosing a piece of content, outermost first. -/
def stylesApplied : Content → List (ElemKind × StyleProp)
  | .styled kind prop body => (kind, prop) :: stylesApplied body
  | _ => []

/-- Outlined flag an element of the given kind resolves under a list of
style rules (outermost first; first rule for the kind wins), starting
from the element's own default. -/
def resolveOutlined (k : ElemKind) (dflt : Bool) : List (ElemKind × StyleProp) → Bool
  | [] => dflt
  | (k', StyleProp.outlined v) :: rest =>
    if k' = k then v else resolveOutlined k dflt rest
  | _ :: rest => resolveOutlined k dflt rest

/-- Numbering an element of the given kind resolves under a list of
style rules, starting from the element's own default. -/
def resolveNumbering (k : ElemKind) (dflt : Option Numbering) :
    List (ElemKind × StyleProp) → Option Numbering
  | [] => dflt
  | (k', StyleProp.numbering v) :: rest =>
    if k' = k then v else resolveNumbering k dflt rest
  | _ :: rest => resolveNumbering k dflt rest

/-- Resolved number texts of the ancestors that have a numbering
configured, shallow to deep; `none` when a location is missing or an
external call fails. Used to state the auto-indent alignment law. -/
def ancestorNumberTexts (w : World) : List Element → Option (List String)
  | [] => some []
  | a :: rest =>
    match a.numbering with
    | none => ancestorNumberTexts w rest
    | some num =>
      match a.location with
      | none => none
      | some loc =>
        match w.counterAt a.counter loc with
        | .error _ => none
        | .ok v =>
          match w.display v num with
          | .error _ => none
          | .ok c => (ancestorNumberTexts w rest).map (fun ts => textOf c :: ts)

/-- Sample oracle world for concrete witnesses: no page numbering is
defined anywhere, every counter reads 1, every display renders "1". -/
def sampleWorld : World where
  pageNumberingAt := fun _ => none
  counterAt := fun _ _ => .ok 1
  display := fun _ _ => .ok (.text "1")

/-- Sample configuration: auto title, no depth limit, no indent, no
fill, English. -/
def sampleAutoConfig : Config where
  title := some .auto
  depth := none
  indent := none
  fill := none
  lang := "en"
  region := none

/-- Sample level-1 heading match with a numbering pattern. -/
def sampleHeading : Element where
  name := "heading"
  outlinable := true
  level := 1
  outlineRes := .ok (some (.text "A"))
  numbering := some (.pattern "1")
  counter := .elem 0
  location := some 0

/-- Sample level-2 heading match without a numbering pattern. -/
def sampleSubheading : Element where
  name := "heading"
  outlinable := true
  level := 2
  outlineRes := .ok (some (.text "B"))
  numbering := none
  counter := .elem 0
  location := some 1

lemma popWhileGe_suffix (l : List Element) (lvl : Nat) : popWhileGe l lvl <:+ l := by
  induction l with
  | nil => simp [popWhileGe]
  | cons a rest ih =>
    rw [popWhileGe]
    split
    · exact ih.trans (List.suffix_cons a rest)
    · exact List.suffix_refl _

lemma mem_popWhileGe {l : List Element} {lvl : Nat} {x : Element}
    (hx : x ∈ popWhileGe l lvl) : x ∈ l :=
  (popWhileGe_suffix l lvl).subset hx

lemma mem_popAncestors {anc : List Element} {lvl : Nat} {x : Element}
    (hx : x ∈ popAncestors anc lvl) : x ∈ anc := by
  rw [popAncestors, List.mem_reverse] at hx
  exact List.mem_reverse.mp (mem_popWhileGe hx)

lemma chain_head_lt {a : Element} {l : List Element}
    (h : List.Chain' (fun u v : Element => v.level < u.level) (a :: l)) :
    ∀ x ∈ l, x.level < a.level := by
  induction l generalizing a with
  | nil => intro x hx; cases hx
  | cons b rest ih =>
    intro x hx
    have hab : b.level < a.level := (List.chain'_cons.mp h).1
    rcases List.mem_cons.mp hx with rfl | hx
    · exact hab
    · exact (ih (List.chain'_cons.mp h).2 x hx).trans hab

lemma popWhileGe_lt {l : List Element} {lvl : Nat}
    (hout : ∀ x ∈ l, x.outlinable = true)
    (hdec : List.Chain' (fun u v : Element => v.level < u.level) l) :
    ∀ x ∈ popWhileGe l lvl, x.level < lvl := by
  induction l with
  | nil => intro x hx; cases hx
  | cons a rest ih =>
    rw [popWhileGe]
    split
    · exact ih (fun x hx => hout x (List.mem_cons_of_mem a hx))
        (List.Chain'.tail hdec)
    · next hcond =>
      have ha : a.level < lvl := by
        rcases Nat.lt_or_ge a.level lvl with h | h
        · exact h
        · exact absurd ⟨hout a (List.mem_cons_self a rest), h⟩ hcond
      intro x hx
      rcases List.mem_cons.mp hx with rfl | hx
      · exact ha
      · exact (chain_head_lt hdec x hx).trans ha

lemma popAncestors_lt {anc : List Element} {lvl : Nat}
    (hout : ∀ x ∈ anc, x.outlinable = true)
    (hinc : List.Chain' (fun u v : Element => u.level < v.level) anc) :
    ∀ x ∈ popAncestors anc lvl, x.level < lvl := by
  intro x hx
  rw [popAncestors, List.mem_reverse] at hx
  refine popWhileGe_lt (fun y hy => hout y (List.mem_reverse.mp hy)) ?_ x hx
  exact List.chain'_reverse.mpr hinc

lemma popAncestors_chain {anc : List Element} {lvl : Nat}
    (hinc : List.Chain' (fun u v : Element => u.level < v.level) anc) :
    List.Chain' (fun u v : Element => u.level < v.level) (popAncestors anc lvl) := by
  rw [popAncestors]
  refine List.chain'_reverse.mpr ?_
  have hrev : List.Chain' (fun u v : Element => v.level < u.level) anc.reverse :=
    List.chain'_reverse.mpr hinc
  have := hrev.suffix (popWhileGe_suffix anc.reverse lvl)
  exact this

lemma chain_snoc {l : List Element} {e : Element}
    (hc : List.Chain' (fun u v : Element => u.level < v.level) l)
    (hall : ∀ x ∈ l, x.level < e.level) :
    List.Chain' (fun u v : Element => u.level < v.level) (l ++ [e]) := by
  refine hc.append (List.chain'_singleton e) ?_
  intro x hx y hy
  simp only [List.head?_cons, Option.mem_def, Option.some.injEq] at hy
  subst hy
  rcases List.mem_getLast?_eq_getLast hx with ⟨hne, rfl⟩
  exact hall _ (List.getLast_mem hne)

lemma showLoop_ok_inv (cfg : Config) (w : World) (depth : Nat) :
    ∀ (elems anc : List Element) (seq seq' : List Content) (anc' : List Element),
      (∀ x ∈ anc, x.outlinable = true) →
      List.Chain' (fun u v : Element => u.level < v.level) anc →
      showLoop cfg w depth elems anc seq = .ok (seq', anc') →
      (∀ x ∈ anc', x.outlinable = true) ∧
        List.Chain' (fun u v : Element => u.level < v.level) anc' := by
  intro elems
  induction elems with
  | nil =>
    intro anc seq seq' anc' hout hinc h
    rw [showLoop] at h
    cases h
    exact ⟨hout, hinc⟩
  | cons e rest ih =>
    intro anc seq seq' anc' hout hinc h
    rw [showLoop] at h
    split at h
    · next ho =>
      have hnext : ∀ seq₀ : List Content,
          showLoop cfg w depth rest (popAncestors anc e.level ++ [e]) seq₀ =
            .ok (seq', anc') →
          (∀ x ∈ anc', x.outlinable = true) ∧
            List.Chain' (fun u v : Element => u.level < v.level) anc' := by
        intro seq₀ hh
        refine ih _ _ _ _ ?_ ?_ hh
        · intro x hx
          rcases List.mem_append.mp hx with hx | hx
          · exact hout x (mem_popAncestors hx)
          · rcases List.mem_cons.mp hx with rfl | hx
            · exact ho
            · cases hx
        · exact chain_snoc (popAncestors_chain hinc) (popAncestors_lt hout hinc)
      simp only [] at h
      repeat' split at h
      all_goals
        first
          | exact BuildResult.noConfusion h
          | exact ih anc seq seq' anc' hout hinc h
          | exact hnext _ h
    · exact BuildResult.noConfusion h

lemma hiddenLoop_no_fatal (w : World) :
    ∀ (l : List Element) (acc : List Content),
      (∀ a ∈ l, a.outlinable = true ∧ a.location.isSome = true) →
      hiddenLoop w l acc ≠ .fatal := by
  intro l
  induction l with
  | nil =>
    intro acc _ h
    rw [hiddenLoop] at h
    exact BuildResult.noConfusion h
  | cons a rest ih =>
    intro acc hall h
    obtain ⟨ho, hloc⟩ := hall a (List.mem_cons_self a rest)
    obtain ⟨loc, hloceq⟩ := Option.isSome_iff_exists.mp hloc
    have htail : ∀ x ∈ rest, x.outlinable = true ∧ x.location.isSome = true :=
      fun x hx => hall x (List.mem_cons_of_mem a hx)
    rw [hiddenLoop, if_pos ho, hloceq] at h
    repeat' split at h
    all_goals
      first
        | exact BuildResult.noConfusion h
        | exact ih _ htail h
        | simp_all

lemma apply_no_fatal (indent : Option (Smart OutlineIndent)) (w : World)
    (ancestors : List Element) (seq : List Content)
    (hall : ∀ a ∈ ancestors, a.outlinable = true ∧ a.location.isSome = true) :
    OutlineIndent.apply indent w ancestors seq ≠ .fatal := by
  intro h
  rw [OutlineIndent.apply.eq_def] at h
  repeat' split at h
  all_goals
    first
      | exact BuildResult.noConfusion h
      | exact hiddenLoop_no_fatal w ancestors [] hall (by assumption)

lemma showLoop_no_fatal (cfg : Config) (w : World) (depth : Nat) :
    ∀ (elems anc : List Element) (seq : List Content),
      (∀ e ∈ elems, e.location.isSome = true) →
      (∀ a ∈ anc, a.outlinable = true ∧ a.location.isSome = true) →
      showLoop cfg w depth elems anc seq ≠ .fatal := by
  intro elems
  induction elems with
  | nil =>
    intro anc seq _ _ h
    rw [showLoop] at h
    exact BuildResult.noConfusion h
  | cons e rest ih =>
    intro anc seq hpend hanc h
    have hel : e.location.isSome = true := hpend e (List.mem_cons_self e rest)
    have hetail : ∀ x ∈ rest, x.location.isSome = true :=
      fun x hx => hpend x (List.mem_cons_of_mem e hx)
    rw [showLoop] at h
    split at h
    · next ho =>
      have hanc' : ∀ a ∈ popAncestors anc e.level ++ [e],
          a.outlinable = true ∧ a.location.isSome = true := by
        intro x hx
        rcases List.mem_append.mp hx with hx | hx
        · exact hanc x (mem_popAncestors hx)
        · rcases List.mem_cons.mp hx with rfl | hx
          · exact ⟨ho, hel⟩
          · cases hx
      simp only [] at h
      repeat' split at h
      all_goals
        first
          | exact BuildResult.noConfusion h
          | exact ih anc seq hetail hanc h
          | exact ih _ _ hetail hanc' h
          | exact apply_no_fatal cfg.indent w (popAncestors anc e.level) seq
              (fun a ha => hanc a (mem_popAncestors ha)) (by assumption)
          | simp_all
    · exact BuildResult.noConfusion h

lemma textOfList_append (l₁ l₂ : List Content) :
    textOfList (l₁ ++ l₂) = textOfList l₁ ++ textOfList l₂ := by
  induction l₁ with
  | nil => simp [textOfList]
  | cons c cs ih => simp [textOfList, ih, String.append_assoc]

lemma hiddenLoop_spec (w : World) :
    ∀ (l : List Element) (ts : List String) (acc : List Content),
      (∀ a ∈ l, a.outlinable = true) →
      ancestorNumberTexts w l = some ts →
      ∃ hidden, hiddenLoop w l acc = .ok (acc ++ hidden) ∧
        textOfList hidden = (ts.map (fun t => t ++ " ")).foldr (· ++ ·) "" := by
  intro l
  induction l with
  | nil =>
    intro ts acc _ hts
    rw [ancestorNumberTexts] at hts
    cases hts
    exact ⟨[], by rw [hiddenLoop, List.append_nil], rfl⟩
  | cons a rest ih =>
    intro ts acc hout hts
    have ho : a.outlinable = true := hout a (List.mem_cons_self a rest)
    have htail : ∀ x ∈ rest, x.outlinable = true :=
      fun x hx => hout x (List.mem_cons_of_mem a hx)
    rw [hiddenLoop, if_pos ho]
    cases hnum : a.numbering with
    | none =>
      simp only [ancestorNumberTexts, hnum] at hts
      simp only [hnum]
      exact ih ts acc htail hts
    | some num =>
      cases hloc : a.location with
      | none =>
        simp only [ancestorNumberTexts, hnum, hloc] at hts
        exact Option.noConfusion hts
      | some loc =>
        cases hcnt : w.counterAt a.counter loc with
        | error er =>
          simp only [ancestorNumberTexts, hnum, hloc, hcnt] at hts
          exact Option.noConfusion hts
        | ok v =>
          cases hdisp : w.display v num with
          | error er =>
            simp only [ancestorNumberTexts, hnum, hloc, hcnt, hdisp] at hts
            exact Option.noConfusion hts
          | ok c =>
            cases hrest : ancestorNumberTexts w rest with
            | none =>
              simp only [ancestorNumberTexts, hnum, hloc, hcnt, hdisp, hrest,
                Option.map_none'] at hts
              exact Option.noConfusion hts
            | some ts' =>
              simp only [ancestorNumberTexts, hnum, hloc, hcnt, hdisp, hrest,
                Option.map_some', Option.some.injEq] at hts
              subst hts
              obtain ⟨hidden', hh, htext⟩ :=
                ih ts' (acc ++ [c, Content.space]) htail hrest
              refine ⟨[c, Content.space] ++ hidden', ?_, ?_⟩
              · simp only [hnum, hloc, hcnt, hdisp]
                rw [hh, List.append_assoc]
              · simp only [List.cons_append, List.append_eq, List.nil_append,
                  textOfList, textOf, List.map_cons, List.foldr_cons, htext,
                  String.append_assoc]

/-- Sample configuration with a depth limit of 1. -/
def sampleDepthConfig : Config where
  title := none
  depth := some 1
  indent := none
  fill := none
  lang := "en"
  region := none

/-- Sample match whose outline() is absent (an uncaptioned figure). -/
def sampleUncaptioned : Element where
  name := "figure"
  outlinable := true
  level := 1
  outlineRes := .ok none
  numbering := none
  counter := .elem 1
  location := some 2

/-- Sample match that does not satisfy the outlinable capability. -/
def sampleNotOutlinable : Element where
  name := "text"
  outlinable := false
  level := 1
  outlineRes := .ok none
  numbering := none
  counter := .elem 2
  location := some 3

/-- C1: Ancestor chain invariant: on a chain of outlinable entries with
strictly increasing levels (the shape of every chain the show loop
builds, starting from the empty one), the pop loop evicts exactly the
entries with level greater than or equal to the incoming element's
level, so every remaining entry is strictly shallower, the chain stays
strictly increasing once the element is pushed, and running the show
loop over any match stream from such a chain yields a chain that is
again all-outlinable and strictly increasing. -/
theorem ancestor_chain_invariant
    (anc : List Element) (lvl : Nat) (e : Element)
    (hout : ∀ x ∈ anc, x.outlinable = true)
    (hinc : List.Chain' (fun u v : Element => u.level < v.level) anc)
    (heo : e.outlinable = true) (helev : e.level = lvl) :
    (∀ x ∈ popAncestors anc lvl, x.level < lvl) ∧
    (∀ x ∈ popAncestors anc lvl ++ [e], x.outlinable = true) ∧
    List.Chain' (fun u v : Element => u.level < v.level)
      (popAncestors anc lvl ++ [e]) ∧
    (∀ (cfg : Config) (w : World) (depth : Nat) (elems : List Element)
        (seq seq' : List Content) (anc' : List Element),
      showLoop cfg w depth elems anc seq = .ok (seq', anc') →
      (∀ x ∈ anc', x.outlinable = true) ∧
        List.Chain' (fun u v : Element => u.level < v.level) anc') := by
  subst helev
  refine ⟨popAncestors_lt hout hinc, ?_,
    chain_snoc (popAncestors_chain hinc) (popAncestors_lt hout hinc), ?_⟩
  · intro x hx
    rcases List.mem_append.mp hx with hx | hx
    · exact hout x (mem_popAncestors hx)
    · rcases List.mem_cons.mp hx with rfl | hx
      · exact heo
      · cases hx
  · intro cfg w depth elems seq seq' anc' h
    exact showLoop_ok_inv cfg w depth elems anc seq seq' anc' hout hinc h

/-- Witness for `ancestor_chain_invariant`: a level-2 element pushed
onto the chain holding one level-1 entry keeps the chain strictly
increasing. -/
theorem ancestor_chain_invariant_witness :
    List.Chain' (fun u v : Element => u.level < v.level)
      (popAncestors [sampleHeading] 2 ++ [sampleSubheading]) :=
  (ancestor_chain_invariant [sampleHeading] 2 sampleSubheading
    (by intro x hx; rcases List.mem_cons.mp hx with rfl | hx
        · rfl
        · cases hx)
    (List.chain'_singleton _) rfl rfl).2.2.1

/-- C2: Depth filtering: with a configured depth `d`, an outlinable
match of level strictly greater than `d` is skipped before the ancestor
chain is consulted — same chain, same output, no pop, no push — and
with no configured depth the resolved depth is `usize::MAX`, so no
element level passes the skip test. -/
theorem depth_filtering
    (cfg : Config) (w : World) (e : Element) (rest anc : List Element)
    (seq : List Content) (d : Nat) (ho : e.outlinable = true) :
    (cfg.depth = some d → d < e.level →
      showLoop cfg w (cfg.depth.getD USIZE_MAX) (e :: rest) anc seq =
        showLoop cfg w (cfg.depth.getD USIZE_MAX) rest anc seq) ∧
    (cfg.depth = none → e.level ≤ USIZE_MAX →
      ¬ cfg.depth.getD USIZE_MAX < e.level) := by
  constructor
  · intro hd hlt
    have hgd : cfg.depth.getD USIZE_MAX = d := by rw [hd]; rfl
    rw [hgd, showLoop, if_pos ho, if_pos hlt]
  · intro hd hle
    rw [hd, Option.getD_none]
    exact Nat.not_lt.mpr hle

/-- Witness for `depth_filtering`: with depth 1, a level-2 heading is
skipped without touching chain or output, and with no depth a level-2
heading is not skipped. -/
theorem depth_filtering_witness :
    (showLoop sampleDepthConfig sampleWorld (sampleDepthConfig.depth.getD USIZE_MAX)
        [sampleSubheading] [] [] =
      showLoop sampleDepthConfig sampleWorld (sampleDepthConfig.depth.getD USIZE_MAX)
        [] [] []) ∧
    ¬ sampleAutoConfig.depth.getD USIZE_MAX < sampleSubheading.level :=
  ⟨(depth_filtering sampleDepthConfig sampleWorld sampleSubheading [] [] [] 1 rfl).1
      rfl (by decide),
   (depth_filtering sampleAutoConfig sampleWorld sampleSubheading [] [] [] 1 rfl).2
      rfl (by decide)⟩

/-- C7: Absent-entry skip: an outlinable match within depth whose
outline() yields absent is skipped entirely: the loop continues with
the same ancestor chain and the same output sequence, so it neither
appears in the output nor pops nor joins the chain. -/
theorem absent_entry_skip
    (cfg : Config) (w : World) (depth : Nat) (e : Element)
    (rest anc : List Element) (seq : List Content)
    (ho : e.outlinable = true) (hd : ¬ depth < e.level)
    (habs : e.outlineRes = .ok none) :
    showLoop cfg w depth (e :: rest) anc seq =
      showLoop cfg w depth rest anc seq := by
  rw [showLoop, if_pos ho, if_neg hd]
  simp only [habs]

/-- Witness for `absent_entry_skip`: an uncaptioned figure is dropped
from the stream with chain and output unchanged. -/
theorem absent_entry_skip_witness :
    showLoop sampleAutoConfig sampleWorld USIZE_MAX
        [sampleUncaptioned, sampleHeading] [] [] =
      showLoop sampleAutoConfig sampleWorld USIZE_MAX [sampleHeading] [] [] :=
  absent_entry_skip sampleAutoConfig sampleWorld USIZE_MAX sampleUncaptioned
    [sampleHeading] [] [] rfl (by decide) rfl

/-- C3 counterexample: the finalizer's restyle does not cover every
outlinable kind: inside finalized output, a figure-kind element with
default outlined = true still resolves as outlined, and keeps a default
numbering, because the applied wrappers only target the heading kind. -/
theorem finalizer_closure_cex :
    resolveOutlined .figure true (stylesApplied (finalize (Content.seq []))) = true ∧
    resolveNumbering .figure (some (.pattern "1"))
        (stylesApplied (finalize (Content.seq []))) = some (.pattern "1") :=
  ⟨rfl, rfl⟩

/-- C3 (amended): after the full output is built, the finalization step
applies a restyling over the entire produced output that marks nested
heading elements — the heading kind only, not every outlinable kind —
as not outlined and as having no numbering: under the applied style
wrappers, the heading kind resolves outlined to false and numbering to
none whatever its defaults were. -/
theorem finalizer_restyles_headings (realized : Content) (b : Bool)
    (n : Option Numbering) :
    resolveOutlined .heading b (stylesApplied (finalize realized)) = false ∧
    resolveNumbering .heading n (stylesApplied (finalize realized)) = none :=
  ⟨rfl, rfl⟩

/-- C4 counterexample: with a configured auto title, the heading pushed
right after the leading paragraph break carries no numbering mark at
all (`none`, the unset field) — it is not emitted with an explicit
numbering-suppression mark (`some none`). -/
theorem title_emission_cex :
    initialSeq sampleAutoConfig =
      [Content.parbreak,
        Content.heading (Content.text "Contents") (some 1) none none] ∧
    Content.heading (Content.text "Contents") (some 1) none none ≠
      Content.heading (Content.text "Contents") (some 1) (some none) none := by
  exact ⟨rfl, by simp⟩

/-- C4 (amended): whenever a title is configured (auto resolving
through the localized-name lookup keyed by language and region), the
assembler emits it immediately after the leading paragraph break as a
level-1 heading whose numbering field is left unset at emission —
numbering suppression comes only from the finalizer's restyle — and on
an empty match stream the build returns exactly this sequence plus the
trailing paragraph break. -/
theorem title_emission (cfg : Config) (t : Smart Content) (w : World)
    (h : cfg.title = some t) :
    initialSeq cfg =
      [Content.parbreak,
        Content.heading
          (match t with
            | .auto => Content.text (localName cfg.lang cfg.region)
            | .custom c => c)
          (some 1) none none] ∧
    build cfg w [] = .ok (.seq (initialSeq cfg ++ [Content.parbreak])) := by
  constructor
  · cases t <;> simp only [initialSeq, h]
  · simp only [build, showLoop]

/-- Witness for `title_emission` at the sample auto-title English
configuration. -/
theorem title_emission_witness :
    initialSeq sampleAutoConfig =
      [Content.parbreak,
        Content.heading (Content.text "Contents") (some 1) none none] ∧
    build sampleAutoConfig sampleWorld [] =
      .ok (.seq (initialSeq sampleAutoConfig ++ [Content.parbreak])) := by
  have h := title_emission sampleAutoConfig .auto sampleWorld rfl
  exact ⟨h.1, h.2⟩

/-- C9: Fail-fast atomicity: a non-outlinable match makes the loop
return the `cannot outline` error naming the match's kind immediately —
the result does not depend on any later match — and every error outcome
of the loop is the whole build's outcome: no partly built sequence is
returned. -/
theorem fail_fast_atomicity
    (cfg : Config) (w : World) (depth : Nat) (e : Element)
    (rest rest' anc : List Element) (seq : List Content)
    (elems : List Element) (er : Err) :
    (e.outlinable = false →
      showLoop cfg w depth (e :: rest) anc seq = .err (.cannotOutline e.name) ∧
      showLoop cfg w depth (e :: rest) anc seq =
        showLoop cfg w depth (e :: rest') anc seq) ∧
    (showLoop cfg w (cfg.depth.getD USIZE_MAX) elems [] (initialSeq cfg) = .err er →
      build cfg w elems = .err er) := by
  constructor
  · intro ho
    have hno : ¬ e.outlinable = true := by simp [ho]
    constructor
    · rw [showLoop, if_neg hno]
    · rw [showLoop, if_neg hno, showLoop, if_neg hno]
  · intro h
    simp only [build, h]

/-- Witness for `fail_fast_atomicity`: a plain-text match aborts the
loop with the `cannot outline` error naming its kind. -/
theorem fail_fast_atomicity_witness :
    showLoop sampleAutoConfig sampleWorld USIZE_MAX
        [sampleNotOutlinable, sampleHeading] [] [] =
      .err (.cannotOutline "text") :=
  ((fail_fast_atomicity sampleAutoConfig sampleWorld USIZE_MAX sampleNotOutlinable
      [sampleHeading] [] [] [] [] (.cannotOutline "text")).1 rfl).1

/-- C10: Located precondition: when every query match has a resolved
location, the build never hits a missing-location unwrap (no panic
outcome); and a match that survives the capability, depth and outline
checks but lacks a location makes the loop panic rather than return an
error. -/
theorem located_precondition
    (cfg : Config) (w : World) (elems : List Element)
    (hloc : ∀ e ∈ elems, e.location.isSome = true)
    (depth : Nat) (e : Element) (rest anc : List Element)
    (seq : List Content) (outline : Content) :
    build cfg w elems ≠ .fatal ∧
    (e.outlinable = true → ¬ depth < e.level →
      e.outlineRes = .ok (some outline) → e.location = none →
      showLoop cfg w depth (e :: rest) anc seq = .fatal) := by
  constructor
  · intro h
    have hnf := showLoop_no_fatal cfg w (cfg.depth.getD USIZE_MAX) elems []
      (initialSeq cfg) hloc (by intro a ha; cases ha)
    rw [build] at h
    split at h
    · exact BuildResult.noConfusion h
    · exact BuildResult.noConfusion h
    · next heq => exact hnf heq
  · intro ho hd hres hlocn
    rw [showLoop, if_pos ho, if_neg hd]
    simp only [hres, hlocn]

/-- Witness for `located_precondition`: a two-heading stream with
locations builds without a panic, and the same heading stripped of its
location makes the loop panic. -/
theorem located_precondition_witness :
    build sampleAutoConfig sampleWorld [sampleHeading, sampleSubheading] ≠ .fatal ∧
    showLoop sampleAutoConfig sampleWorld USIZE_MAX
        [{ sampleHeading with location := none }] [] [] = .fatal := by
  constructor
  · exact (located_precondition sampleAutoConfig sampleWorld
      [sampleHeading, sampleSubheading] (by decide) USIZE_MAX sampleHeading [] []
      [] (Content.text "A")).1
  · exact (located_precondition sampleAutoConfig sampleWorld []
      (by intro e he; cases he) USIZE_MAX { sampleHeading with location := none }
      [] [] [] (Content.text "A")).2 rfl (by decide) rfl rfl

/-- C5 counterexample: with a single numbered ancestor whose number
displays as "1", the hidden fragment the Auto strategy emits has text
"1 " — every ancestor number carries a trailing space inside the hidden
fragment — not the plain space-joined concatenation "1". -/
theorem auto_indent_cex :
    OutlineIndent.apply (some .auto) sampleWorld [sampleHeading] [] =
      .ok [Content.hide (Content.seq [Content.text "1", Content.space]),
        Content.space] ∧
    textOf (Content.seq [Content.text "1", Content.space]) ≠
      String.intercalate " " ["1"] := by
  exact ⟨rfl, by decide⟩

/-- C5 (amended): for the Auto strategy (and its legacy `true` alias),
when every ancestor is outlinable and the resolved number texts of the
numbered ancestors are `ts` (shallow to deep), the hidden fragment's
text equals the concatenation of each number text followed by one
space, the hidden fragment is followed by one visible space, and
nothing at all is emitted when the chain is empty. -/
theorem auto_indent_alignment
    (w : World) (ancestors : List Element) (seq : List Content)
    (ts : List String)
    (hout : ∀ a ∈ ancestors, a.outlinable = true)
    (hts : ancestorNumberTexts w ancestors = some ts) :
    ∃ hidden : List Content,
      textOfList hidden = (ts.map (fun t => t ++ " ")).foldr (· ++ ·) "" ∧
      OutlineIndent.apply (some .auto) w ancestors seq =
        (if ancestors.isEmpty then .ok seq
          else .ok (seq ++ [.hide (.seq hidden), .space])) ∧
      OutlineIndent.apply (some (.custom (.bool true))) w ancestors seq =
        OutlineIndent.apply (some .auto) w ancestors seq := by
  obtain ⟨hidden, hh, htext⟩ := hiddenLoop_spec w ancestors ts [] hout hts
  refine ⟨hidden, htext, ?_, rfl⟩
  have heq : OutlineIndent.apply (some .auto) w ancestors seq =
      match hiddenLoop w ancestors [] with
      | .err e => .err e
      | .fatal => .fatal
      | .ok hidden =>
        if ancestors.isEmpty then .ok seq
        else .ok (seq ++ [.hide (.seq hidden), .space]) := rfl
  rw [heq]
  simp only [hh, List.nil_append]

/-- Witness for `auto_indent_alignment`: one numbered ancestor whose
number displays as "1" yields the hidden text "1 " followed by one
visible space. -/
theorem auto_indent_alignment_witness :
    ∃ hidden : List Content,
      textOfList hidden = ((["1"].map (fun t => t ++ " ")).foldr (· ++ ·) "") ∧
      OutlineIndent.apply (some .auto) sampleWorld [sampleHeading] [] =
        (if ([sampleHeading] : List Element).isEmpty then .ok []
          else .ok ([] ++ [.hide (.seq hidden), .space])) ∧
      OutlineIndent.apply (some (.custom (.bool true))) sampleWorld [sampleHeading] [] =
        OutlineIndent.apply (some .auto) sampleWorld [sampleHeading] [] :=
  auto_indent_alignment sampleWorld [sampleHeading] [] ["1"]
    (by intro a ha
        rcases List.mem_cons.mp ha with rfl | ha
        · rfl
        · cases ha)
    rfl

/-- C6: Indentation-function contract: the function strategy invokes
the function with exactly the current chain length (the result depends
on the function only through its value there, and the chain length is 0
for top-level entries), fails with the `indent function must return
content` error exactly when the returned value is not content,
suppresses a returned empty content (no fragment appended), and appends
a returned non-empty content. -/
theorem indent_function_contract
    (w : World) (f : Nat → Except Err Value)
    (ancestors : List Element) (seq : List Content) :
    (∀ g : Nat → Except Err Value, f ancestors.length = g ancestors.length →
      OutlineIndent.apply (some (.custom (.function f))) w ancestors seq =
        OutlineIndent.apply (some (.custom (.function g))) w ancestors seq) ∧
    (∀ v : Value, f ancestors.length = .ok v →
      (OutlineIndent.apply (some (.custom (.function f))) w ancestors seq =
          .err .indentNotContent ↔ v.castContent = none)) ∧
    (∀ c : Content, f ancestors.length = .ok (.content c) → c.isEmpty = true →
      OutlineIndent.apply (some (.custom (.function f))) w ancestors seq = .ok seq) ∧
    (∀ c : Content, f ancestors.length = .ok (.content c) → c.isEmpty = false →
      OutlineIndent.apply (some (.custom (.function f))) w ancestors seq =
        .ok (seq ++ [c])) := by
  have heq : ∀ g : Nat → Except Err Value,
      OutlineIndent.apply (some (.custom (.function g))) w ancestors seq =
        match g ancestors.length with
        | .error e => .err e
        | .ok returned =>
          match returned.castContent with
          | none => .err .indentNotContent
          | some c => if c.isEmpty then .ok seq else .ok (seq ++ [c]) :=
    fun _ => rfl
  refine ⟨?_, ?_, ?_, ?_⟩
  · intro g hfg
    rw [heq f, heq g, hfg]
  · intro v hv
    rw [heq f]
    simp only [hv]
    cases hc : v.castContent with
    | none => simp
    | some c =>
      rcases Bool.eq_false_or_eq_true c.isEmpty with hce | hce <;> simp [hce]
  · intro c hv hce
    rw [heq f]
    simp [hv, Value.castContent, hce]
  · intro c hv hce
    rw [heq f]
    simp [hv, Value.castContent, hce]

/-- Witness for `indent_function_contract`: a constant indent function
returning a non-empty text fragment appends exactly that fragment at
depth 0. -/
theorem indent_function_contract_witness :
    OutlineIndent.apply
        (some (.custom (.function (fun _ => .ok (.content (Content.text "!"))))))
        sampleWorld [] [] = .ok [Content.text "!"] :=
  (indent_function_contract sampleWorld
      (fun _ => .ok (.content (Content.text "!"))) [] []).2.2.2
    (Content.text "!") rfl rfl

/-- C8: Page-label fallback and linking: a rendered entry's page marker
uses the page-numbering pattern active at the element's location,
falling back to the plain arabic pattern "1" when the document defines
none there, formats the page counter's value at that location under
that pattern, and links the result to the same location as the entry's
label; the element is then pushed onto the popped chain. -/
theorem page_label_fallback_link
    (cfg : Config) (w : World) (depth : Nat) (e : Element)
    (rest anc : List Element) (seq seq₁ : List Content)
    (loc : Nat) (outline page : Content) (v : Nat)
    (ho : e.outlinable = true) (hd : ¬ depth < e.level)
    (hres : e.outlineRes = .ok (some outline)) (hloc : e.location = some loc)
    (happly : OutlineIndent.apply cfg.indent w (popAncestors anc e.level) seq =
      .ok seq₁)
    (hcnt : w.counterAt .page loc = .ok v)
    (hdisp : w.display v ((w.pageNumberingAt loc).getD (Numbering.pattern "1")) =
      .ok page) :
    showLoop cfg w depth (e :: rest) anc seq =
      showLoop cfg w depth rest (popAncestors anc e.level ++ [e])
        ((seq₁ ++ [Content.linked loc outline]) ++
          (match cfg.fill with
            | some filler => [Content.space, Content.box filler, Content.space]
            | none => [Content.h (Spacing.fr 1)]) ++
          [Content.linked loc page, Content.linebreak]) := by
  rw [showLoop, if_pos ho, if_neg hd]
  simp only [hres, hloc, happly, hcnt, hdisp]
  cases cfg.fill <;> simp [List.append_assoc]

/-- Witness for `page_label_fallback_link`: the sample world defines no
page numbering anywhere, so the sample heading's entry gets an
arabic-formatted page marker linked to its location. -/
theorem page_label_fallback_link_witness :
    showLoop sampleAutoConfig sampleWorld USIZE_MAX [sampleHeading] [] [] =
      showLoop sampleAutoConfig sampleWorld USIZE_MAX []
        (popAncestors [] sampleHeading.level ++ [sampleHeading])
        (([] ++ [Content.linked 0 (Content.text "A")]) ++
          [Content.h (Spacing.fr 1)] ++
          [Content.linked 0 (Content.text "1"), Content.linebreak]) :=
  page_label_fallback_link sampleAutoConfig sampleWorld USIZE_MAX sampleHeading
    [] [] [] [] 0 (Content.text "A") (Content.text "1") 1
    rfl (by decide) rfl rfl rfl rfl rfl
